import Mathlib

/-!
Verification of the fyne rich-text wrap engine and mutation model.

This file shallowly embeds the Go source of the rich-text widget
(`splitLines`, `binarySearch`, `findSpaceIndex`, `lineBounds`,
`RichText.insertAt`, `RichText.deleteFromTo`, `RichText.charMinSize`,
`RichText.MinSize`, `RichText.updateRowBounds`) into Lean.

Conventions of the embedding:
- Go strings / rune slices are `List Char`; rune indices are `Nat`.
- Pixel widths (Go `float32`) are abstracted as `Int`: every claim treated
  here is parametric in the measurement function, so only the ordered
  arithmetic of widths matters, never floating-point rounding.
- A Go slice expression `text[low:high]` is `goSlice text low high`; code
  paths on which Go would panic (out-of-range slice indices) are modelled
  by returning `none` from an `Option`-valued function.
- The unbounded Go `for` loops of the wrap engine are written with an
  explicit fuel argument that makes them structurally recursive; fuel
  exhaustion returns `none`.  `lineBounds` passes `loopFuel`, and the
  theorems below prove this fuel is always sufficient, so the embedded
  functions compute exactly what the Go loops compute.
-/

/-- Go slice expression `text[low:high]` (value semantics). -/
def goSlice (text : List Char) (low high : Nat) : List Char :=
  (text.drop low).take (high - low)

/-- Wrap mode, from `fyne.TextWrap` (`TextWrapOff`, `TextTruncate`,
`TextWrapBreak`, `TextWrapWord`). -/
inductive TextWrap where
  | off
  | truncate
  | break'
  | word
deriving DecidableEq, Repr

/-- The `Inline` flag of `RichTextStyle`; the other style fields (alignment,
color name, size name, text style) only feed the abstracted theme/measure
collaborators and are not needed by any claim. -/
structure RichTextStyle where
  Inline : Bool
deriving DecidableEq, Repr

/-- `TextSegment`: style, text and the password-concealment flag. -/
structure TextSegment where
  Style : RichTextStyle
  Text : List Char
  concealed : Bool
deriving DecidableEq, Repr

/-- A `RichTextSegment` of the widget: either a `*TextSegment` or any
non-text segment variant (list, separator, image, ...), whose content never
participates in offset counting or row computation. -/
inductive Segment where
  | text (t : TextSegment)
  | nontext
deriving DecidableEq, Repr

/-- `rowBoundary`: segment reference, begin/end rune offsets, inline flag. -/
structure rowBoundary where
  seg : TextSegment
  begin : Nat
  end' : Nat
  inline : Bool
deriving DecidableEq, Repr

/-- Go `unicode.IsSpace`: the Unicode `White_Space` code points. -/
def isSpaceGo (c : Char) : Bool :=
  (9 ≤ c.toNat && c.toNat ≤ 13) || c.toNat = 32 || c.toNat = 0x85 || c.toNat = 0xA0 ||
  c.toNat = 0x1680 || (0x2000 ≤ c.toNat && c.toNat ≤ 0x200A) ||
  c.toNat = 0x2028 || c.toNat = 0x2029 || c.toNat = 0x202F ||
  c.toNat = 0x205F || c.toNat = 0x3000

/-- The exponential-decay phase of `binarySearch`:
Go `for delta > 0 { delta /= 2; if lessMaxWidth(low, high+delta) { high += delta } }`.
The fuel makes the loop structurally recursive; since `delta` at least
halves each iteration, an initial fuel equal to the initial `delta`
is sufficient (all lemmas below carry the hypothesis `delta ≤ fuel`). -/
def bsDeltaF (f : Nat → Nat → Bool) (low : Nat) : Nat → Nat → Nat → Nat
  | 0, high, _ => high
  | fuel+1, high, delta =>
    if delta = 0 then high
    else
      let d := delta / 2
      bsDeltaF f low fuel (if f low (high + d) then high + d else high) d

/-- The linear 1-step correction phase of `binarySearch`:
Go `for (high < maxHigh) && lessMaxWidth(low, high+1) { high++ }`.
An initial fuel of `maxHigh - low` is sufficient because `high` starts
at or above `low` and the loop stops at `maxHigh`. -/
def bsLinearF (f : Nat → Nat → Bool) (low maxHigh : Nat) : Nat → Nat → Nat
  | 0, high => high
  | fuel+1, high =>
    if high < maxHigh && f low (high + 1) then bsLinearF f low maxHigh fuel (high + 1)
    else high

/-- Go `binarySearch(lessMaxWidth, low, maxHigh)`. -/
def binarySearch (lessMaxWidth : Nat → Nat → Bool) (low maxHigh : Nat) : Nat :=
  if low ≥ maxHigh then low
  else if lessMaxWidth low maxHigh then maxHigh
  else bsLinearF lessMaxWidth low maxHigh (maxHigh - low)
    (bsDeltaF lessMaxWidth low (maxHigh - low) low (maxHigh - low))

/-- The descending scan of Go `findSpaceIndex`: the loop
`for ; curIndex >= 0; curIndex-- { if unicode.IsSpace(text[curIndex]) { break } }`
returns `some` of the largest index `≤ fallback` holding a space, `none` when
the scan runs past index 0.  Out-of-range reads are modelled by `getD` with a
non-space default (every call of the engine stays in range). -/
def findSpaceFrom (text : List Char) : Nat → Option Nat
  | 0 => if isSpaceGo (text.getD 0 (Char.ofNat 0)) then some 0 else none
  | i+1 => if isSpaceGo (text.getD (i+1) (Char.ofNat 0)) then some (i+1)
           else findSpaceFrom text i

/-- Go `findSpaceIndex(text, fallback)`: the index of the last space at or
before `fallback`, or `fallback` if there is none. -/
def findSpaceIndex (text : List Char) (fallback : Nat) : Nat :=
  match findSpaceFrom text fallback with
  | some i => i
  | none => fallback

/-- The scanning loop of Go `splitLines`: `rest` is `text.drop i`, `low` is
the start offset of the current physical line, `lines` the rows produced so
far. -/
def splitLinesLoop (seg : TextSegment) (text : List Char) :
    List Char → Nat → Nat → List rowBoundary → List rowBoundary
  | [], _, low, lines => lines ++ [⟨seg, low, text.length, true⟩]
  | c :: rest, i, low, lines =>
    if c = '\n' then
      splitLinesLoop seg text rest (i+1) (i+1) (lines ++ [⟨seg, low, i, false⟩])
    else
      splitLinesLoop seg text rest (i+1) low lines

/-- Go `splitLines(seg)`: one boundary per physical line delimited by
newline characters. -/
def splitLines (seg : TextSegment) : List rowBoundary :=
  splitLinesLoop seg seg.Text seg.Text 0 0 []

/-- The `checker` closure of Go `lineBounds`:
`func(low, high int) bool { return measurer(text[low:high]) <= maxWidth }`. -/
def checker (text : List Char) (measurer : List Char → Int) (maxWidth : Int) :
    Nat → Nat → Bool :=
  fun low high => decide (measurer (goSlice text low high) ≤ maxWidth)

/-- The `fyne.TextWrapBreak` loop of Go `lineBounds`, with fuel. -/
def breakLoopF (seg : TextSegment) (text : List Char) (measurer : List Char → Int)
    (maxWidth : Int) (lineEnd : Nat) : Nat → Nat → Nat → Option (List rowBoundary)
  | 0, _, _ => none
  | fuel+1, low, high =>
    if low < high then
      if measurer (goSlice text low high) ≤ maxWidth then
        (breakLoopF seg text measurer maxWidth lineEnd fuel high lineEnd).map
          (fun rest => ⟨seg, low, high, false⟩ :: rest)
      else
        breakLoopF seg text measurer maxWidth lineEnd fuel low
          (binarySearch (checker text measurer maxWidth) low high)
    else some []

/-- The `fyne.TextWrapWord` loop of Go `lineBounds`, with fuel. -/
def wordLoopF (seg : TextSegment) (text : List Char) (measurer : List Char → Int)
    (maxWidth : Int) (lineEnd : Nat) : Nat → Nat → Nat → Option (List rowBoundary)
  | 0, _, _ => none
  | fuel+1, low, high =>
    if low < high then
      let sub := goSlice text low high
      if measurer sub ≤ maxWidth then
        let low2 := high
        let low3 := if low2 < lineEnd && isSpaceGo (text.getD low2 (Char.ofNat 0))
                    then low2 + 1 else low2
        (wordLoopF seg text measurer maxWidth lineEnd fuel low3 lineEnd).map
          (fun rest => ⟨seg, low, high, false⟩ :: rest)
      else
        let last := low + sub.length - 1
        wordLoopF seg text measurer maxWidth lineEnd fuel low
          (low + findSpaceIndex sub (binarySearch (checker text measurer maxWidth) low last - low))
    else some []

/-- Fuel passed to the wrap loops by `lineBounds`; the termination theorems
below show it strictly exceeds the measure
`(lineEnd + 1 - low) * (lineEnd + 2) + high` of every reachable loop state,
so the loops never exhaust it. -/
def loopFuel (lineEnd : Nat) : Nat :=
  (lineEnd + 1) * (lineEnd + 2) + lineEnd + 1

/-- Go `lineBounds(seg, wrap, maxWidth, measurer)`. -/
def lineBounds (seg : TextSegment) (wrap : TextWrap) (maxWidth : Int)
    (measurer : List Char → Int) : List rowBoundary :=
  let lines := splitLines seg
  if maxWidth ≤ 0 ∨ wrap = TextWrap.off then lines
  else
    let text := seg.Text
    (lines.map fun l =>
      if l.begin = l.end' then [l]
      else
        match wrap with
        | TextWrap.off => []
        | TextWrap.truncate =>
          [⟨seg, l.begin, binarySearch (checker text measurer maxWidth) l.begin l.end', false⟩]
        | TextWrap.break' =>
          (breakLoopF seg text measurer maxWidth l.end' (loopFuel l.end') l.begin l.end').getD []
        | TextWrap.word =>
          (wordLoopF seg text measurer maxWidth l.end' (loopFuel l.end') l.begin l.end').getD []
      ).flatten

/-- Go `bounds[len(bounds)-1].inline = seg.Inline()` (no-op on an empty
list, which the caller guards against anyway). -/
def setLastInline (bounds : List rowBoundary) (inl : Bool) : List rowBoundary :=
  match bounds.getLast? with
  | none => bounds
  | some b => bounds.set (bounds.length - 1) ⟨b.seg, b.begin, b.end', inl⟩

/-- The segment loop of Go `RichText.updateRowBounds`; `measureText t` is the
measurement closure built from `t`'s style and size for `lineBounds`. -/
def updateRowBoundsLoop (wrap : TextWrap) (maxWidth : Int)
    (measureText : TextSegment → List Char → Int) :
    List Segment → List rowBoundary → List rowBoundary
  | [], bounds => bounds
  | Segment.nontext :: rest, bounds =>
    updateRowBoundsLoop wrap maxWidth measureText rest bounds
  | Segment.text t :: rest, bounds =>
    let bounds2 := bounds ++ lineBounds t wrap maxWidth (measureText t)
    if bounds2.length = 0 then updateRowBoundsLoop wrap maxWidth measureText rest bounds2
    else updateRowBoundsLoop wrap maxWidth measureText rest (setLastInline bounds2 t.Style.Inline)

/-- Go `RichText.updateRowBounds` (maxWidth stands for
`t.size.Width - 2*theme.Padding()`). -/
def updateRowBounds (segs : List Segment) (wrap : TextWrap) (maxWidth : Int)
    (measureText : TextSegment → List Char → Int) : List rowBoundary :=
  updateRowBoundsLoop wrap maxWidth measureText segs []

/-- The segment-locating loop shared verbatim by Go `RichText.insertAt` and
`RichText.deleteFromTo`: walk the segments, skipping non-text ones, recording
the current text segment and its index, and break at the first text segment
whose cumulative rune range end exceeds `pos`.  Returns the recorded
`(index, segment)` (Go `index`/`into`), or `none` when no text segment
exists (Go `into == nil`). -/
def findSegLoop (pos : Nat) : List Segment → Nat → Nat → Option (Nat × TextSegment) →
    Option (Nat × TextSegment)
  | [], _, _, found => found
  | Segment.nontext :: rest, i, start, found => findSegLoop pos rest (i+1) start found
  | Segment.text t :: rest, i, start, found =>
    if start + t.Text.length > pos then some (i, t)
    else findSegLoop pos rest (i+1) (start + t.Text.length) (some (i, t))

/-- Go `RichText.insertAt(pos, runes)`.  The splice
`append(r[:pos], append([]rune(runes), r[pos:]...)...)` indexes the located
segment's runes with the global `pos`; when `pos` exceeds that segment's
length the Go slice expressions are out of range (run-time panic), modelled
as `none`. -/
def insertAt (segs : List Segment) (pos : Nat) (runes : List Char) :
    Option (List Segment) :=
  match findSegLoop pos segs 0 0 none with
  | none => some segs
  | some (index, into) =>
    let r := into.Text
    if pos ≤ r.length then
      some (segs.set index (Segment.text ⟨into.Style, r.take pos ++ runes ++ r.drop pos, into.concealed⟩))
    else none

/-- Go `RichText.deleteFromTo(lowBound, highBound)`, returning the deleted
runes and the new segment list.  `make([]rune, highBound-lowBound)` and the
slice `r[lowBound:highBound]` inside `copy` are evaluated BEFORE the clamp
`if highBound > len(r) { highBound = len(r) }`, so they are out of range
(run-time panic, modelled as `none`) whenever `lowBound > highBound` or
`highBound > len(r)`; the clamp below is consequently dead code, kept for
fidelity with the source. -/
def deleteFromTo (segs : List Segment) (lowBound highBound : Nat) :
    Option (List Char × List Segment) :=
  match findSegLoop lowBound segs 0 0 none with
  | none => some ([], segs)
  | some (index, from') =>
    let r := from'.Text
    if lowBound ≤ highBound ∧ highBound ≤ r.length then
      let deleted := goSlice r lowBound highBound
      let highBound2 := if highBound > r.length then r.length else highBound
      some (deleted,
        segs.set index (Segment.text ⟨from'.Style, r.take lowBound ++ r.drop highBound2, from'.concealed⟩))
    else none

/-- The password masking character. -/
def passwordChar : Char := '•'

/-- Go `RichText.charMinSize(concealed)`: measures `"M"` (or the password
character) in the style of `Segments[0].(*TextSegment)`.  When the segment
list is empty the index `Segments[0]` is out of range, and when the first
segment is not a `*TextSegment` the type assertion fails; both are run-time
panics, modelled as `none`.  `measure s t` abstracts
`fyne.MeasureText(s, t.size(), t.Style.TextStyle)` as a width/height pair. -/
def charMinSize (segs : List Segment) (concealed : Bool)
    (measure : List Char → TextSegment → Int × Int) : Option (Int × Int) :=
  let defaultChar := if concealed then [passwordChar] else ['M']
  match segs with
  | Segment.text t :: _ => some (measure defaultChar t)
  | _ => none

/-- Go `RichText.row(row)`: the runes of the row, or `nil` (here `[]`) on any
out-of-range condition. -/
def rowGo (bounds : List rowBoundary) (row : Nat) : List Char :=
  match bounds.get? row with
  | none => []
  | some b =>
    if b.end' > b.seg.Text.length then []
    else if b.end' < b.begin then []
    else goSlice b.seg.Text b.begin b.end'

/-- The row loop of Go `RichText.MinSize`: `rest` is the remaining suffix of
`bounds` so `rest = []` exactly when `i = count-1`; `bound == nil` cannot
occur for `i < count`. -/
def minSizeLoop (bounds : List rowBoundary) (wrap : TextWrap)
    (charMin concealedMin : Int × Int) (measure : List Char → TextSegment → Int × Int) :
    List rowBoundary → Nat → Int → Int → Int × Int
  | [], _, width, height => (width, height)
  | bound :: rest, i, width, height =>
    let str := rowGo bounds i
    let min0 := measure str bound.seg
    let min1 := if str = [] then (if bound.seg.concealed then concealedMin else charMin) else min0
    let width2 := if wrap = TextWrap.off then max width min1.1 else width
    let height2 := if rest = [] ∨ bound.inline = false then height + min1.2 else height
    minSizeLoop bounds wrap charMin concealedMin measure rest (i+1) width2 height2

/-- Go `RichText.MinSize`: undefined (panics inside `charMinSize`) unless the
first segment is a `*TextSegment`.  `rowBounds` is the widget's cached
boundary list, `padding` is `theme.Padding()`, `inset` the widget inset. -/
def minSize (segs : List Segment) (rowBounds : List rowBoundary) (wrap : TextWrap)
    (measure : List Char → TextSegment → Int × Int) (padding : Int) (inset : Int × Int) :
    Option (Int × Int) :=
  match charMinSize segs false measure, charMinSize segs true measure with
  | some charMin, some concealedMin =>
    let wh := minSizeLoop rowBounds wrap charMin concealedMin measure rowBounds 0 0 0
    let height2 := if wh.2 = 0 then charMin.2 else wh.2
    some (wh.1 + padding*4 - inset.1 - inset.1, height2 + padding*4 - inset.2 - inset.2)
  | _, _ => none

/-- `true` iff the first segment exists and is a `*TextSegment` — the
unstated precondition of `charMinSize`. -/
def headIsText : List Segment → Bool
  | Segment.text _ :: _ => true
  | _ => false

/-! ### Facts about `binarySearch` -/

lemma bsDeltaF_ge (f : Nat → Nat → Bool) (low : Nat) :
    ∀ fuel high delta, high ≤ bsDeltaF f low fuel high delta := by
  intro fuel
  induction fuel with
  | zero => intro high delta; simp [bsDeltaF]
  | succ n ih =>
    intro high delta
    simp only [bsDeltaF]
    split
    · exact le_refl _
    · split
      · exact le_trans (Nat.le_add_right _ _) (ih _ _)
      · exact ih _ _

lemma bsDeltaF_le (f : Nat → Nat → Bool) (low M : Nat) :
    ∀ fuel high delta, delta ≤ fuel → high + delta ≤ M →
    bsDeltaF f low fuel high delta ≤ M := by
  intro fuel
  induction fuel with
  | zero => intro high delta h1 h2; simp [bsDeltaF]; omega
  | succ n ih =>
    intro high delta h1 h2
    simp only [bsDeltaF]
    split
    · omega
    · rename_i hd
      split
      · exact ih _ _ (by omega) (by omega)
      · exact ih _ _ (by omega) (by omega)

lemma bsDeltaF_fits (f : Nat → Nat → Bool) (low : Nat) :
    ∀ fuel high delta, (high = low ∨ f low high = true) →
    (bsDeltaF f low fuel high delta = low ∨ f low (bsDeltaF f low fuel high delta) = true) := by
  intro fuel
  induction fuel with
  | zero => intro high delta h; simpa [bsDeltaF] using h
  | succ n ih =>
    intro high delta h
    simp only [bsDeltaF]
    split
    · exact h
    · split
      · rename_i hf; exact ih _ _ (Or.inr hf)
      · exact ih _ _ h

lemma bsLinearF_ge (f : Nat → Nat → Bool) (low maxHigh : Nat) :
    ∀ fuel high, high ≤ bsLinearF f low maxHigh fuel high := by
  intro fuel
  induction fuel with
  | zero => intro high; simp [bsLinearF]
  | succ n ih =>
    intro high
    simp only [bsLinearF]
    split
    · exact le_trans (Nat.le_succ _) (ih _)
    · exact le_refl _

lemma bsLinearF_le (f : Nat → Nat → Bool) (low maxHigh : Nat) :
    ∀ fuel high, high ≤ maxHigh → bsLinearF f low maxHigh fuel high ≤ maxHigh := by
  intro fuel
  induction fuel with
  | zero => intro high h; simpa [bsLinearF] using h
  | succ n ih =>
    intro high h
    simp only [bsLinearF]
    split
    · rename_i hc
      simp only [Bool.and_eq_true, decide_eq_true_eq] at hc
      exact ih _ (by omega)
    · exact h

lemma bsLinearF_fits (f : Nat → Nat → Bool) (low maxHigh : Nat) :
    ∀ fuel high, (high = low ∨ f low high = true) →
    (bsLinearF f low maxHigh fuel high = low ∨
      f low (bsLinearF f low maxHigh fuel high) = true) := by
  intro fuel
  induction fuel with
  | zero => intro high h; simpa [bsLinearF] using h
  | succ n ih =>
    intro high h
    simp only [bsLinearF]
    split
    · rename_i hc
      simp only [Bool.and_eq_true, decide_eq_true_eq] at hc
      exact ih _ (Or.inr hc.2)
    · exact h

lemma bsLinearF_largest (f : Nat → Nat → Bool) (low maxHigh : Nat) :
    ∀ fuel high, high ≤ maxHigh → maxHigh - high ≤ fuel →
    (bsLinearF f low maxHigh fuel high = maxHigh ∨
      f low (bsLinearF f low maxHigh fuel high + 1) = false) := by
  intro fuel
  induction fuel with
  | zero =>
    intro high h1 h2
    left
    simp only [bsLinearF]
    omega
  | succ n ih =>
    intro high h1 h2
    simp only [bsLinearF]
    split
    · rename_i hc
      simp only [Bool.and_eq_true, decide_eq_true_eq] at hc
      exact ih _ (by omega) (by omega)
    · rename_i hc
      simp only [Bool.and_eq_true, decide_eq_true_eq, not_and] at hc
      by_cases hm : high < maxHigh
      · right
        have := hc hm
        simpa using this
      · left; omega

lemma binarySearch_eq_else (f : Nat → Nat → Bool) (low maxHigh : Nat)
    (h1 : low < maxHigh) (h2 : f low maxHigh = false) :
    binarySearch f low maxHigh =
      bsLinearF f low maxHigh (maxHigh - low)
        (bsDeltaF f low (maxHigh - low) low (maxHigh - low)) := by
  unfold binarySearch
  rw [if_neg (by omega), if_neg (by simp [h2])]

lemma binarySearch_ge (f : Nat → Nat → Bool) (low maxHigh : Nat) :
    low ≤ binarySearch f low maxHigh := by
  unfold binarySearch
  split
  · exact le_refl _
  · split
    · omega
    · exact le_trans (bsDeltaF_ge f low _ low _) (bsLinearF_ge f low maxHigh _ _)

lemma binarySearch_le (f : Nat → Nat → Bool) (low maxHigh : Nat) (h : low ≤ maxHigh) :
    binarySearch f low maxHigh ≤ maxHigh := by
  unfold binarySearch
  split
  · exact h
  · split
    · exact le_refl _
    · exact bsLinearF_le f low maxHigh _ _
        (bsDeltaF_le f low maxHigh _ low _ (le_refl _) (by omega))

lemma binarySearch_fits (f : Nat → Nat → Bool) (low maxHigh : Nat)
    (h1 : low < maxHigh) (h2 : f low maxHigh = false) :
    binarySearch f low maxHigh = low ∨ f low (binarySearch f low maxHigh) = true := by
  rw [binarySearch_eq_else f low maxHigh h1 h2]
  exact bsLinearF_fits f low maxHigh _ _ (bsDeltaF_fits f low _ low _ (Or.inl rfl))

lemma binarySearch_lt (f : Nat → Nat → Bool) (low maxHigh : Nat)
    (h1 : low < maxHigh) (h2 : f low maxHigh = false) :
    binarySearch f low maxHigh < maxHigh := by
  rcases Nat.lt_or_ge (binarySearch f low maxHigh) maxHigh with h | h
  · exact h
  · exfalso
    have hle := binarySearch_le f low maxHigh (le_of_lt h1)
    have heq : binarySearch f low maxHigh = maxHigh := le_antisymm hle h
    rcases binarySearch_fits f low maxHigh h1 h2 with hf | hf
    · omega
    · rw [heq, h2] at hf; exact Bool.false_ne_true hf

lemma binarySearch_largest (f : Nat → Nat → Bool) (low maxHigh : Nat)
    (h1 : low < maxHigh) (h2 : f low maxHigh = false)
    (dc : ∀ h h', f low h = true → low ≤ h' → h' ≤ h → f low h' = true) :
    ∀ h, h ≤ maxHigh → f low h = true → h ≤ binarySearch f low maxHigh := by
  intro h hle hf
  by_contra hgt
  push_neg at hgt
  have hge := binarySearch_ge f low maxHigh
  rw [binarySearch_eq_else f low maxHigh h1 h2] at hgt hge
  have hd_le : bsDeltaF f low (maxHigh - low) low (maxHigh - low) ≤ maxHigh :=
    bsDeltaF_le f low maxHigh _ low _ (le_refl _) (by omega)
  have hd_ge : low ≤ bsDeltaF f low (maxHigh - low) low (maxHigh - low) :=
    bsDeltaF_ge f low _ low _
  rcases bsLinearF_largest f low maxHigh (maxHigh - low) _ hd_le (by omega) with hm | hm
  · omega
  · have : f low (bsLinearF f low maxHigh (maxHigh - low)
        (bsDeltaF f low (maxHigh - low) low (maxHigh - low)) + 1) = true :=
      dc h _ hf (by omega) (by omega)
    rw [hm] at this
    exact Bool.false_ne_true this

lemma bsDeltaF_allFalse (f : Nat → Nat → Bool) (low : Nat)
    (hf : ∀ h, low ≤ h → f low h = false) :
    ∀ fuel high delta, low ≤ high → bsDeltaF f low fuel high delta = high := by
  intro fuel
  induction fuel with
  | zero => intro high delta _; simp [bsDeltaF]
  | succ n ih =>
    intro high delta hh
    simp only [bsDeltaF]
    split
    · rfl
    · rw [hf (high + delta / 2) (by omega)]
      simp only [Bool.false_eq_true, if_false]
      exact ih _ _ hh

lemma bsLinearF_allFalse (f : Nat → Nat → Bool) (low maxHigh : Nat)
    (hf : ∀ h, low ≤ h → f low h = false) :
    ∀ fuel high, low ≤ high → bsLinearF f low maxHigh fuel high = high := by
  intro fuel
  induction fuel with
  | zero => intro high _; simp [bsLinearF]
  | succ n ih =>
    intro high hh
    simp only [bsLinearF]
    rw [hf (high + 1) (by omega)]
    simp

lemma binarySearch_nofit (f : Nat → Nat → Bool) (low maxHigh : Nat)
    (dc : ∀ h h', f low h = true → low ≤ h' → h' ≤ h → f low h' = true)
    (hll : f low low = false) :
    binarySearch f low maxHigh = low := by
  have hf : ∀ h, low ≤ h → f low h = false := by
    intro h hh
    cases hEq : f low h with
    | false => rfl
    | true =>
      have : f low low = true := dc h low hEq (le_refl low) hh
      rw [hll] at this
      exact absurd this (by simp)
  unfold binarySearch
  split
  · rfl
  · rename_i hge
    rw [hf maxHigh (by omega)]
    simp only [Bool.false_eq_true, if_false]
    rw [bsDeltaF_allFalse f low hf _ low _ (le_refl _)]
    exact bsLinearF_allFalse f low maxHigh hf _ low (le_refl _)

/-! ### Facts about `findSpaceIndex` -/

lemma findSpaceFrom_le (text : List Char) :
    ∀ i j, findSpaceFrom text i = some j → j ≤ i := by
  intro i
  induction i with
  | zero =>
    intro j h
    simp only [findSpaceFrom] at h
    split at h
    · simp at h; omega
    · simp at h
  | succ n ih =>
    intro j h
    simp only [findSpaceFrom] at h
    split at h
    · simp at h; omega
    · exact le_trans (ih j h) (Nat.le_succ n)

lemma findSpaceIndex_le (text : List Char) (fallback : Nat) :
    findSpaceIndex text fallback ≤ fallback := by
  unfold findSpaceIndex
  split
  · rename_i i h; exact findSpaceFrom_le text fallback i h
  · exact le_refl _

/-! ### Termination of the wrap loops

The loops of `lineBounds` terminate with the measure
`(lineEnd + 1 - low) * (lineEnd + 2) + high`: when a prefix fits, `low`
strictly increases (to `high`, or `high + 1` after a skipped space); when it
does not fit, `low` is unchanged and `high` strictly decreases. -/

lemma muDecFit (low low3 high lineEnd : Nat) (h1 : low < high) (h2 : low < low3) :
    (lineEnd + 1 - low3) * (lineEnd + 2) + lineEnd <
      (lineEnd + 1 - low) * (lineEnd + 2) + high := by
  rcases le_or_lt low lineEnd with hc | hc
  · have ha : lineEnd + 1 - low3 ≤ lineEnd - low := by omega
    have hb : lineEnd + 1 - low = (lineEnd - low) + 1 := by omega
    calc (lineEnd + 1 - low3) * (lineEnd + 2) + lineEnd
        ≤ (lineEnd - low) * (lineEnd + 2) + lineEnd :=
          Nat.add_le_add_right (Nat.mul_le_mul_right _ ha) _
      _ < ((lineEnd - low) + 1) * (lineEnd + 2) := by
          rw [Nat.add_mul, Nat.one_mul]; omega
      _ = (lineEnd + 1 - low) * (lineEnd + 2) := by rw [hb]
      _ ≤ (lineEnd + 1 - low) * (lineEnd + 2) + high := Nat.le_add_right _ _
  · have ha : lineEnd + 1 - low = 0 := by omega
    have hb : lineEnd + 1 - low3 = 0 := by omega
    rw [ha, hb, Nat.zero_mul]
    omega

/-- The back-off step of the Word loop strictly decreases `high`. -/
lemma wordStep_lt (text : List Char) (measurer : List Char → Int) (maxWidth : Int)
    (low high : Nat) (h : low < high) :
    low + findSpaceIndex (goSlice text low high)
      (binarySearch (checker text measurer maxWidth) low
        (low + (goSlice text low high).length - 1) - low) < high := by
  have hlen : (goSlice text low high).length ≤ high - low := by
    simp only [goSlice, List.length_take]
    omega
  have hfsi := findSpaceIndex_le (goSlice text low high)
    (binarySearch (checker text measurer maxWidth) low
      (low + (goSlice text low high).length - 1) - low)
  rcases Nat.eq_zero_or_pos (goSlice text low high).length with hz | hp
  · have hbs : binarySearch (checker text measurer maxWidth) low
        (low + (goSlice text low high).length - 1) = low := by
      unfold binarySearch
      rw [if_pos (by omega)]
    omega
  · have hbs : binarySearch (checker text measurer maxWidth) low
        (low + (goSlice text low high).length - 1) ≤
        low + (goSlice text low high).length - 1 :=
      binarySearch_le (checker text measurer maxWidth) low _ (by omega)
    omega

/-- The back-off step of the Break loop strictly decreases `high`. -/
lemma breakStep_lt (text : List Char) (measurer : List Char → Int) (maxWidth : Int)
    (low high : Nat) (h : low < high)
    (hnf : ¬ measurer (goSlice text low high) ≤ maxWidth) :
    binarySearch (checker text measurer maxWidth) low high < high := by
  apply binarySearch_lt
  · exact h
  · simp [checker, hnf]

/-- `loopFuel` is sufficient for the Break loop: the loop never exhausts its
fuel, i.e. the Go loop terminates. -/
lemma breakLoopF_isSome (seg : TextSegment) (text : List Char)
    (measurer : List Char → Int) (maxWidth : Int) (lineEnd : Nat) :
    ∀ fuel low high, (lineEnd + 1 - low) * (lineEnd + 2) + high < fuel →
    (breakLoopF seg text measurer maxWidth lineEnd fuel low high).isSome := by
  intro fuel
  induction fuel with
  | zero => intro low high hle; omega
  | succ n ih =>
    intro low high hle
    simp only [breakLoopF]
    split
    · rename_i hlt
      split
      · rename_i hfit
        rw [Option.isSome_map']
        apply ih
        calc (lineEnd + 1 - high) * (lineEnd + 2) + lineEnd
            < (lineEnd + 1 - low) * (lineEnd + 2) + high := muDecFit low high high lineEnd hlt hlt
          _ ≤ n := by omega
      · rename_i hnf
        apply ih
        have hdec := breakStep_lt text measurer maxWidth low high hlt hnf
        have : (lineEnd + 1 - low) * (lineEnd + 2) +
            binarySearch (checker text measurer maxWidth) low high <
            (lineEnd + 1 - low) * (lineEnd + 2) + high := Nat.add_lt_add_left hdec _
        omega
    · simp

/-- `loopFuel` is sufficient for the Word loop. -/
lemma wordLoopF_isSome (seg : TextSegment) (text : List Char)
    (measurer : List Char → Int) (maxWidth : Int) (lineEnd : Nat) :
    ∀ fuel low high, (lineEnd + 1 - low) * (lineEnd + 2) + high < fuel →
    (wordLoopF seg text measurer maxWidth lineEnd fuel low high).isSome := by
  intro fuel
  induction fuel with
  | zero => intro low high hle; omega
  | succ n ih =>
    intro low high hle
    simp only [wordLoopF]
    split
    · rename_i hlt
      split
      · rename_i hfit
        rw [Option.isSome_map']
        apply ih
        have hlow3 : low < if high < lineEnd && isSpaceGo (text.getD high (Char.ofNat 0))
            then high + 1 else high := by
          split
          · omega
          · exact hlt
        calc (lineEnd + 1 - (if high < lineEnd && isSpaceGo (text.getD high (Char.ofNat 0))
                then high + 1 else high)) * (lineEnd + 2) + lineEnd
            < (lineEnd + 1 - low) * (lineEnd + 2) + high := muDecFit low _ high lineEnd hlt hlow3
          _ ≤ n := by omega
      · rename_i hnf
        apply ih
        have hdec := wordStep_lt text measurer maxWidth low high hlt
        have : (lineEnd + 1 - low) * (lineEnd + 2) +
            (low + findSpaceIndex (goSlice text low high)
              (binarySearch (checker text measurer maxWidth) low
                (low + (goSlice text low high).length - 1) - low)) <
            (lineEnd + 1 - low) * (lineEnd + 2) + high := Nat.add_lt_add_left hdec _
        omega
    · simp

/-- The measure of the initial loop state is below `loopFuel lineEnd` whenever
`high ≤ lineEnd` (as in every call made by `lineBounds`). -/
lemma loopFuel_suff (lineEnd low high : Nat) (h : high ≤ lineEnd) :
    (lineEnd + 1 - low) * (lineEnd + 2) + high < loopFuel lineEnd := by
  unfold loopFuel
  have : (lineEnd + 1 - low) * (lineEnd + 2) ≤ (lineEnd + 1) * (lineEnd + 2) :=
    Nat.mul_le_mul_right _ (by omega)
  omega

/-! ### Rows produced by the wrap loops -/

/-- Every row the Word loop emits is emitted inside the fitting branch: it
references `seg`, spans a nonempty in-range rune interval, and measures at
most `maxWidth`. -/
lemma wordLoopF_mem (seg : TextSegment) (text : List Char)
    (measurer : List Char → Int) (maxWidth : Int) (lineEnd : Nat) :
    ∀ fuel low high rows, high ≤ lineEnd →
    wordLoopF seg text measurer maxWidth lineEnd fuel low high = some rows →
    ∀ b ∈ rows, b.seg = seg ∧ b.begin < b.end' ∧ b.end' ≤ lineEnd ∧
      measurer (goSlice text b.begin b.end') ≤ maxWidth := by
  intro fuel
  induction fuel with
  | zero => intro low high rows _ h; simp [wordLoopF] at h
  | succ n ih =>
    intro low high rows hhi h
    simp only [wordLoopF] at h
    split at h
    · rename_i hlt
      split at h
      · rename_i hfit
        rcases Option.map_eq_some'.mp h with ⟨rest, hrest, hrows⟩
        subst hrows
        intro b hb
        rcases List.mem_cons.mp hb with hb | hb
        · subst hb
          exact ⟨rfl, hlt, hhi, hfit⟩
        · exact ih _ _ _ (le_refl _) hrest b hb
      · rename_i hnf
        intro b hb
        have hdec := wordStep_lt text measurer maxWidth low high hlt
        exact ih _ _ _ (by omega) h b hb
    · simp only [Option.some_inj] at h
      subst h
      intro b hb
      simp at hb

/-- Every row the Break loop emits is emitted inside the fitting branch. -/
lemma breakLoopF_mem (seg : TextSegment) (text : List Char)
    (measurer : List Char → Int) (maxWidth : Int) (lineEnd : Nat) :
    ∀ fuel low high rows, high ≤ lineEnd →
    breakLoopF seg text measurer maxWidth lineEnd fuel low high = some rows →
    ∀ b ∈ rows, b.seg = seg ∧ b.begin < b.end' ∧ b.end' ≤ lineEnd ∧
      measurer (goSlice text b.begin b.end') ≤ maxWidth := by
  intro fuel
  induction fuel with
  | zero => intro low high rows _ h; simp [breakLoopF] at h
  | succ n ih =>
    intro low high rows hhi h
    simp only [breakLoopF] at h
    split at h
    · rename_i hlt
      split at h
      · rename_i hfit
        rcases Option.map_eq_some'.mp h with ⟨rest, hrest, hrows⟩
        subst hrows
        intro b hb
        rcases List.mem_cons.mp hb with hb | hb
        · subst hb
          exact ⟨rfl, hlt, hhi, hfit⟩
        · exact ih _ _ _ (le_refl _) hrest b hb
      · rename_i hnf
        intro b hb
        have hdec := breakStep_lt text measurer maxWidth low high hlt hnf
        exact ih _ _ _ (by omega) h b hb
    · simp only [Option.some_inj] at h
      subst h
      intro b hb
      simp at hb

/-! ### Facts about `splitLines` -/

/-- The accumulator of `splitLinesLoop` is a prefix of its result. -/
lemma splitLinesLoop_append (seg : TextSegment) (text : List Char) :
    ∀ rest i low lines, splitLinesLoop seg text rest i low lines =
      lines ++ splitLinesLoop seg text rest i low [] := by
  intro rest
  induction rest with
  | nil => intro i low lines; simp [splitLinesLoop]
  | cons c rest ih =>
    intro i low lines
    simp only [splitLinesLoop]
    split
    · rw [ih _ _ (lines ++ _), ih _ _ ([] ++ _)]
      simp
    · exact ih _ _ _

/-- Inline flags of the boundaries produced by `splitLinesLoop`: `false` on
every physical line except the last, which carries `true`. -/
lemma splitLinesLoop_inline (seg : TextSegment) (text : List Char) :
    ∀ rest i low, (splitLinesLoop seg text rest i low []).map rowBoundary.inline =
      List.replicate (rest.count '\n') false ++ [true] := by
  intro rest
  induction rest with
  | nil => intro i low; simp [splitLinesLoop]
  | cons c rest ih =>
    intro i low
    simp only [splitLinesLoop]
    split
    · rename_i hc
      rw [splitLinesLoop_append seg text rest (i+1) (i+1) ([] ++ _)]
      simp only [List.nil_append, List.map_append, List.map_cons, List.map_nil]
      rw [ih]
      rw [List.count_cons]
      simp [hc]
      rfl
    · rename_i hc
      rw [ih]
      rw [List.count_cons]
      simp [hc]

lemma intercalate_single (sep x : List Char) : sep.intercalate [x] = x := by
  simp [List.intercalate]

lemma intercalate_cons (sep x : List Char) (xs : List (List Char)) (h : xs ≠ []) :
    sep.intercalate (x :: xs) = x ++ sep ++ sep.intercalate xs := by
  cases xs with
  | nil => exact absurd rfl h
  | cons y t => simp [List.intercalate, List.append_assoc]

lemma splitLinesLoop_ne_nil (seg : TextSegment) (text : List Char) :
    ∀ rest i low, splitLinesLoop seg text rest i low [] ≠ [] := by
  intro rest
  induction rest with
  | nil => intro i low; simp [splitLinesLoop]
  | cons c rest ih =>
    intro i low
    simp only [splitLinesLoop]
    split
    · rw [splitLinesLoop_append seg text rest (i+1) (i+1) ([] ++ _)]
      simp only [List.nil_append]
      exact List.append_ne_nil_of_left_ne_nil (by simp) _
    · exact ih _ _

lemma drop_succ_of_cons (text rest : List Char) (i : Nat) (c : Char)
    (hc : text.drop i = c :: rest) : text.drop (i+1) = rest := by
  have h := congrArg List.tail hc
  simpa [List.tail_drop] using h

/-- Concatenating the physical-line substrings produced by `splitLinesLoop`,
re-inserting one newline between consecutive lines, reconstructs the text
from offset `low` on. -/
lemma splitLinesLoop_intercalate (seg : TextSegment) (text : List Char) :
    ∀ rest i low, rest = text.drop i → low ≤ i →
    List.intercalate ['\n']
      ((splitLinesLoop seg text rest i low []).map (fun b => goSlice text b.begin b.end')) =
      text.drop low := by
  intro rest
  induction rest with
  | nil =>
    intro i low hrest hlow
    have hi : text.length ≤ i := by
      have := congrArg List.length hrest
      simp [List.length_drop] at this
      omega
    simp only [splitLinesLoop, List.nil_append, List.map_cons, List.map_nil]
    rw [intercalate_single]
    simp only [goSlice]
    rw [List.take_of_length_le (by simp only [List.length_drop]; omega)]
  | cons c rest ih =>
    intro i low hrest hlow
    have hi : i < text.length := by
      have := congrArg List.length hrest
      simp [List.length_drop] at this
      omega
    have hc : text.drop i = c :: rest := hrest.symm
    have h5 : text.drop (i+1) = rest := drop_succ_of_cons text rest i c hc
    simp only [splitLinesLoop]
    split
    · rename_i hnl
      subst hnl
      rw [splitLinesLoop_append seg text rest (i+1) (i+1) ([] ++ _)]
      simp only [List.nil_append, List.map_append, List.map_cons, List.map_nil,
        List.singleton_append]
      rw [intercalate_cons _ _ _ (by simp [splitLinesLoop_ne_nil])]
      rw [ih (i+1) (i+1) h5.symm (le_refl _)]
      have hdecomp : text.drop low = goSlice text low i ++ '\n' :: text.drop (i+1) := by
        have h1 : text.drop low =
            (text.drop low).take (i - low) ++ (text.drop low).drop (i - low) :=
          (List.take_append_drop _ _).symm
        have h2 : (text.drop low).drop (i - low) = text.drop i := by
          rw [List.drop_drop]; congr 1; omega
        have h3 : text.drop i = '\n' :: text.drop (i+1) := by rw [hc, h5]
        calc text.drop low
            = (text.drop low).take (i - low) ++ (text.drop low).drop (i - low) := h1
          _ = goSlice text low i ++ text.drop i := by rw [h2]; rfl
          _ = goSlice text low i ++ '\n' :: text.drop (i+1) := by rw [h3]
      rw [hdecomp, h5]
      simp
    · rename_i hnl
      rw [ih (i+1) low h5.symm (by omega)]

/-- Offsets of the boundaries produced by `splitLinesLoop` are monotone and
in range. -/
lemma splitLinesLoop_mem (seg : TextSegment) (text : List Char) :
    ∀ rest i low, i + rest.length = text.length → low ≤ i →
    ∀ b ∈ splitLinesLoop seg text rest i low [],
      b.seg = seg ∧ b.begin ≤ b.end' ∧ b.end' ≤ text.length := by
  intro rest
  induction rest with
  | nil =>
    intro i low hi hlow b hb
    simp only [splitLinesLoop, List.nil_append, List.mem_singleton] at hb
    subst hb
    refine ⟨rfl, by simp; omega, by simp⟩
  | cons c rest ih =>
    intro i low hi hlow b hb
    simp only [splitLinesLoop] at hb
    split at hb
    · rw [splitLinesLoop_append seg text rest (i+1) (i+1) ([] ++ _)] at hb
      simp only [List.nil_append, List.singleton_append, List.mem_cons] at hb
      rcases hb with hb | hb
      · subst hb
        refine ⟨rfl, by simpa using hlow, by simp; omega⟩
      · exact ih (i+1) (i+1) (by simp at hi ⊢; omega) (le_refl _) b hb
    · exact ih (i+1) low (by simp at hi ⊢; omega) (by omega) b hb

/-! ### Facts about `splitLines` and `lineBounds` -/

lemma splitLines_mem (seg : TextSegment) :
    ∀ b ∈ splitLines seg, b.seg = seg ∧ b.begin ≤ b.end' ∧ b.end' ≤ seg.Text.length := by
  intro b hb
  exact splitLinesLoop_mem seg seg.Text seg.Text 0 0 (by simp) (le_refl _) b hb

/-- Offset sanity of every boundary produced by `lineBounds`, for every wrap
mode, width and measurement function. -/
lemma lineBounds_mem (seg : TextSegment) (wrap : TextWrap) (maxWidth : Int)
    (measurer : List Char → Int) :
    ∀ b ∈ lineBounds seg wrap maxWidth measurer,
      b.seg = seg ∧ b.begin ≤ b.end' ∧ b.end' ≤ seg.Text.length := by
  intro b hb
  unfold lineBounds at hb
  split at hb
  · exact splitLines_mem seg b hb
  · simp only [List.mem_flatten, List.mem_map] at hb
    rcases hb with ⟨rows, ⟨l, hl, hrows⟩, hb⟩
    have hlmem := splitLines_mem seg l hl
    subst hrows
    split at hb
    · rename_i hdeg
      simp only [List.mem_singleton] at hb
      subst hb
      exact hlmem
    · rename_i hdeg
      have hline : l.begin < l.end' := lt_of_le_of_ne hlmem.2.1 hdeg
      split at hb
      · simp at hb
      · simp only [List.mem_singleton] at hb
        subst hb
        refine ⟨rfl, binarySearch_ge _ _ _, ?_⟩
        exact le_trans (binarySearch_le _ _ _ hlmem.2.1) hlmem.2.2
      · rcases ho : breakLoopF seg seg.Text measurer maxWidth l.end'
            (loopFuel l.end') l.begin l.end' with _ | rows
        · rw [ho] at hb; simp at hb
        · rw [ho] at hb
          simp only [Option.getD_some] at hb
          have := breakLoopF_mem seg seg.Text measurer maxWidth l.end' _ _ _ _
            (le_refl _) ho b hb
          exact ⟨this.1, le_of_lt this.2.1, le_trans this.2.2.1 hlmem.2.2⟩
      · rcases ho : wordLoopF seg seg.Text measurer maxWidth l.end'
            (loopFuel l.end') l.begin l.end' with _ | rows
        · rw [ho] at hb; simp at hb
        · rw [ho] at hb
          simp only [Option.getD_some] at hb
          have := wordLoopF_mem seg seg.Text measurer maxWidth l.end' _ _ _ _
            (le_refl _) ho b hb
          exact ⟨this.1, le_of_lt this.2.1, le_trans this.2.2.1 hlmem.2.2⟩

/-- Degenerate (empty-line) boundaries of `splitLines` are kept by
`lineBounds` under every wrap mode. -/
lemma lineBounds_keeps_degenerate (seg : TextSegment) (wrap : TextWrap)
    (maxWidth : Int) (measurer : List Char → Int) :
    ∀ l ∈ splitLines seg, l.begin = l.end' →
    l ∈ lineBounds seg wrap maxWidth measurer := by
  intro l hl hdeg
  unfold lineBounds
  split
  · exact hl
  · simp only [List.mem_flatten, List.mem_map]
    refine ⟨[l], ⟨l, hl, ?_⟩, by simp⟩
    rw [if_pos hdeg]

lemma setLastInline_mem (bounds : List rowBoundary) (inl : Bool) :
    ∀ b ∈ setLastInline bounds inl, ∃ b' ∈ bounds,
      b.seg = b'.seg ∧ b.begin = b'.begin ∧ b.end' = b'.end' := by
  intro b hb
  unfold setLastInline at hb
  split at hb
  · exact ⟨b, hb, rfl, rfl, rfl⟩
  · rename_i b0 hlast
    rcases List.mem_or_eq_of_mem_set hb with h | h
    · exact ⟨b, h, rfl, rfl, rfl⟩
    · subst h
      exact ⟨b0, List.mem_of_mem_getLast? hlast, rfl, rfl, rfl⟩

/-- Offset sanity is preserved through `updateRowBounds`. -/
lemma updateRowBoundsLoop_mem (wrap : TextWrap) (maxWidth : Int)
    (measureText : TextSegment → List Char → Int) :
    ∀ segs bounds,
    (∀ b ∈ bounds, b.begin ≤ b.end' ∧ b.end' ≤ b.seg.Text.length) →
    ∀ b ∈ updateRowBoundsLoop wrap maxWidth measureText segs bounds,
      b.begin ≤ b.end' ∧ b.end' ≤ b.seg.Text.length := by
  intro segs
  induction segs with
  | nil => intro bounds hinv b hb; exact hinv b hb
  | cons s rest ih =>
    intro bounds hinv b hb
    cases s with
    | nontext => exact ih bounds hinv b hb
    | text t =>
      simp only [updateRowBoundsLoop] at hb
      have hinv2 : ∀ b ∈ bounds ++ lineBounds t wrap maxWidth (measureText t),
          b.begin ≤ b.end' ∧ b.end' ≤ b.seg.Text.length := by
        intro b hb
        rcases List.mem_append.mp hb with h | h
        · exact hinv b h
        · have := lineBounds_mem t wrap maxWidth (measureText t) b h
          rw [this.1]
          exact this.2
      split at hb
      · exact ih _ hinv2 b hb
      · refine ih _ ?_ b hb
        intro b' hb'
        rcases setLastInline_mem _ _ b' hb' with ⟨b0, hb0, hseg, hbeg, hend⟩
        rw [hseg, hbeg, hend]
        exact hinv2 b0 hb0

/-! ### Facts about the mutation operations -/

/-- When the segment list holds no text segment, the locate loop returns its
accumulator unchanged (Go leaves `into == nil`). -/
lemma findSegLoop_allNontext (pos : Nat) :
    ∀ segs i start found, (∀ s ∈ segs, s = Segment.nontext) →
    findSegLoop pos segs i start found = found := by
  intro segs
  induction segs with
  | nil => intro i start found _; rfl
  | cons s rest ih =>
    intro i start found hall
    cases s with
    | nontext =>
      simp only [findSegLoop]
      exact ih _ _ _ (fun s hs => hall s (List.mem_cons_of_mem _ hs))
    | text t =>
      exact absurd (hall (Segment.text t) (List.mem_cons_self _ _)) (by simp)

/-- On a single text segment the locate loop finds it, for every position. -/
lemma findSegLoop_single (pos : Nat) (t : TextSegment) :
    findSegLoop pos [Segment.text t] 0 0 none = some (0, t) := by
  simp only [findSegLoop]
  split <;> rfl

lemma length_insert (T s : List Char) (pos : Nat) (hpos : pos ≤ T.length) :
    (T.take pos ++ s ++ T.drop pos).length = T.length + s.length := by
  simp [List.length_take, List.length_drop]
  omega

lemma take_insert (T s : List Char) (pos : Nat) (hpos : pos ≤ T.length) :
    (T.take pos ++ s ++ T.drop pos).take pos = T.take pos := by
  rw [List.append_assoc, List.take_left' (by simp [List.length_take]; omega)]

lemma drop_insert (T s : List Char) (pos : Nat) (hpos : pos ≤ T.length) :
    (T.take pos ++ s ++ T.drop pos).drop pos = s ++ T.drop pos := by
  rw [List.append_assoc, List.drop_left' (by simp [List.length_take]; omega)]

/-! ### Claim theorems -/

/-- C2 (counterexample): for the constant-false predicate — which is
downward-closed — with `low = 0 < maxHigh = 1`, no `high` in `[low, maxHigh]`
fits, yet the claim asserts `binarySearch` returns the largest fitting
`high`.  `binarySearch` returns `0`, and `fits 0 0` is `false`, so the
returned value is not a fitting `high` and no largest fitting `high`
exists. -/
theorem c2_counterexample :
    binarySearch (fun _ _ => false) 0 1 = 0 ∧
    (fun _ _ => false : Nat → Nat → Bool) 0 0 = false ∧
    (fun _ _ => false : Nat → Nat → Bool) 0 1 = false := by
  decide

/-- C2 (amended): for every predicate `fits` downward-closed in its second
argument, `binarySearch fits low maxHigh` returns `low` when
`low ≥ maxHigh`; returns `maxHigh` when `fits low maxHigh` holds; otherwise,
PROVIDED some high fits (equivalently `fits low low` holds), returns the
largest `high` in `[low, maxHigh]` with `fits low high` true; when nothing
fits (`fits low low` is false) it returns `low`; and repeated calls with the
same arguments return the same result. -/
theorem c2_binarySearch_contract (f : Nat → Nat → Bool) (low maxHigh : Nat)
    (dc : ∀ h h', f low h = true → low ≤ h' → h' ≤ h → f low h' = true) :
    (low ≥ maxHigh → binarySearch f low maxHigh = low) ∧
    (low < maxHigh → f low maxHigh = true → binarySearch f low maxHigh = maxHigh) ∧
    (low < maxHigh → f low maxHigh = false → f low low = true →
      f low (binarySearch f low maxHigh) = true ∧
      low ≤ binarySearch f low maxHigh ∧ binarySearch f low maxHigh ≤ maxHigh ∧
      ∀ h, h ≤ maxHigh → f low h = true → h ≤ binarySearch f low maxHigh) ∧
    (f low low = false → binarySearch f low maxHigh = low) ∧
    binarySearch f low maxHigh = binarySearch f low maxHigh := by
  refine ⟨?_, ?_, ?_, ?_, rfl⟩
  · intro h
    unfold binarySearch
    rw [if_pos h]
  · intro h1 h2
    unfold binarySearch
    rw [if_neg (by omega), if_pos h2]
  · intro h1 h2 h3
    refine ⟨?_, binarySearch_ge f low maxHigh,
      binarySearch_le f low maxHigh (le_of_lt h1),
      binarySearch_largest f low maxHigh h1 h2 dc⟩
    rcases binarySearch_fits f low maxHigh h1 h2 with h | h
    · rw [h]; exact h3
    · exact h
  · intro h3
    exact binarySearch_nofit f low maxHigh dc h3

theorem c2_witness :
    (fun _ h => decide (h ≤ 2) : Nat → Nat → Bool) 0
      (binarySearch (fun _ h => decide (h ≤ 2)) 0 5) = true ∧
    (0 : Nat) ≤ binarySearch (fun _ h => decide (h ≤ 2)) 0 5 ∧
    binarySearch (fun _ h => decide (h ≤ 2)) 0 5 ≤ 5 ∧
    (2 : Nat) ≤ binarySearch (fun _ h => decide (h ≤ 2)) 0 5 := by
  have h := (c2_binarySearch_contract (fun _ h => decide (h ≤ 2)) 0 5
    (by intro a b c d e; simp only [decide_eq_true_eq] at c ⊢; omega)).2.2.1
    (by decide) (by decide) (by decide)
  exact ⟨h.1, h.2.1, h.2.2.1, h.2.2.2 2 (by decide) (by decide)⟩

/-- C3: `splitLines` splits exactly on newline characters: it yields one
boundary per physical line (count of newlines plus one), with
`inline = false` on all but the final boundary (which carries `true`), and
concatenating the row substrings of all boundaries, re-inserting the newline
characters, reconstructs the original segment text exactly. -/
theorem c3_splitLines_roundtrip (seg : TextSegment) :
    (splitLines seg).length = seg.Text.count '\n' + 1 ∧
    (splitLines seg).map rowBoundary.inline =
      List.replicate (seg.Text.count '\n') false ++ [true] ∧
    List.intercalate ['\n']
      ((splitLines seg).map (fun b => goSlice seg.Text b.begin b.end')) = seg.Text := by
  have hflags := splitLinesLoop_inline seg seg.Text seg.Text 0 0
  refine ⟨?_, hflags, ?_⟩
  · have := congrArg List.length hflags
    simpa using this
  · have := splitLinesLoop_intercalate seg seg.Text seg.Text 0 0 (by simp) (le_refl _)
    simpa using this

/-- C4 (code bug): with two text segments `"ab"` and `"cd"` and `pos = 3`
(inside the second segment's cumulative range, and within the total length 4),
`insertAt` locates the second segment but then slices its runes with the
GLOBAL offset 3 (`r[:pos]`/`r[pos:]` where `len(r) = 2`) instead of the local
offset 1 — the computed cumulative `start` is never used — which is an
out-of-range slice at run time, not the claimed splice. -/
theorem c4_insertAt_crosses_segment :
    insertAt [Segment.text ⟨⟨true⟩, ['a','b'], false⟩,
              Segment.text ⟨⟨true⟩, ['c','d'], false⟩] 3 ['X'] = none := by
  decide

/-- C5 (code bug): with a single text segment `"ab"` and bounds `(1, 5)`,
`deleteFromTo` evaluates `copy(deleted, r[lowBound:highBound])` with
`highBound = 5 > len(r) = 2` BEFORE the clamp `if highBound > len(r)`, an
out-of-range slice at run time — it panics instead of clamping. -/
theorem c5_deleteFromTo_overrun :
    deleteFromTo [Segment.text ⟨⟨true⟩, ['a','b'], false⟩] 1 5 = none := by
  decide

/-- C6: on a single text segment `T`, for every `pos ≤ len(runes T)` and
every inserted rune sequence `s`, `insertAt pos s` followed by
`deleteFromTo pos (pos + len s)` returns `s` as the deleted substring and
restores the segment text to `T` exactly. -/
theorem c6_insert_delete_roundtrip (st : RichTextStyle) (con : Bool)
    (T s : List Char) (pos : Nat) (hpos : pos ≤ T.length) :
    insertAt [Segment.text ⟨st, T, con⟩] pos s =
      some [Segment.text ⟨st, T.take pos ++ s ++ T.drop pos, con⟩] ∧
    deleteFromTo [Segment.text ⟨st, T.take pos ++ s ++ T.drop pos, con⟩]
        pos (pos + s.length) =
      some (s, [Segment.text ⟨st, T, con⟩]) := by
  have hlen : (T.take pos ++ s ++ T.drop pos).length = T.length + s.length :=
    length_insert T s pos hpos
  constructor
  · unfold insertAt
    rw [findSegLoop_single]
    simp only
    rw [if_pos hpos]
    rfl
  · unfold deleteFromTo
    rw [findSegLoop_single]
    simp only
    rw [if_pos ⟨by omega, by omega⟩]
    have hclamp : (if pos + s.length > (T.take pos ++ s ++ T.drop pos).length
        then (T.take pos ++ s ++ T.drop pos).length else pos + s.length) =
        pos + s.length := by
      rw [if_neg (by omega)]
    have hdel : goSlice (T.take pos ++ s ++ T.drop pos) pos (pos + s.length) = s := by
      unfold goSlice
      rw [drop_insert T s pos hpos]
      rw [Nat.add_sub_cancel_left]
      exact List.take_left' rfl
    have hdrop : (T.take pos ++ s ++ T.drop pos).drop (pos + s.length) = T.drop pos := by
      have h1 : (T.take pos ++ s ++ T.drop pos).drop (pos + s.length) =
          ((T.take pos ++ s ++ T.drop pos).drop pos).drop s.length := by
        rw [List.drop_drop]
      rw [h1, drop_insert T s pos hpos, List.drop_left' rfl]
    rw [hclamp, hdel, hdrop, take_insert T s pos hpos, List.take_append_drop]
    rfl

theorem c6_witness :
    insertAt [Segment.text ⟨⟨true⟩, ['a','b'], false⟩] 1 ['x','y'] =
      some [Segment.text ⟨⟨true⟩,
        (['a','b'].take 1 ++ ['x','y'] ++ ['a','b'].drop 1), false⟩] ∧
    deleteFromTo [Segment.text ⟨⟨true⟩,
        (['a','b'].take 1 ++ ['x','y'] ++ ['a','b'].drop 1), false⟩]
        1 (1 + (['x','y'] : List Char).length) =
      some (['x','y'], [Segment.text ⟨⟨true⟩, ['a','b'], false⟩]) :=
  c6_insert_delete_roundtrip ⟨true⟩ false ['a','b'] ['x','y'] 1 (by decide)

/-- C9: on a segment list with no text segment, `insertAt` is a silent no-op
and `deleteFromTo` returns the empty string leaving the list unchanged;
neither reports an error (both succeed). -/
theorem c9_mutation_noop (segs : List Segment) (pos : Nat) (runes : List Char)
    (lowBound highBound : Nat) (hall : ∀ s ∈ segs, s = Segment.nontext) :
    insertAt segs pos runes = some segs ∧
    deleteFromTo segs lowBound highBound = some ([], segs) := by
  constructor
  · unfold insertAt
    rw [findSegLoop_allNontext pos segs 0 0 none hall]
  · unfold deleteFromTo
    rw [findSegLoop_allNontext lowBound segs 0 0 none hall]

theorem c9_witness :
    insertAt [Segment.nontext] 2 ['x'] = some [Segment.nontext] ∧
    deleteFromTo [Segment.nontext] 0 3 = some ([], [Segment.nontext]) :=
  c9_mutation_noop [Segment.nontext] 2 ['x'] 0 3 (by decide)

/-- C10: `charMinSize` — and therefore `MinSize` — is undefined (panics via
out-of-range indexing or a failed type assertion on `Segments[0]`) exactly
when the segment list is empty or its first segment is not a text segment;
both return a value whenever the first segment is a text segment. -/
theorem c10_minSize_requires_text_head (segs : List Segment)
    (rowBounds : List rowBoundary) (wrap : TextWrap)
    (measure : List Char → TextSegment → Int × Int)
    (padding : Int) (inset : Int × Int) (concealed : Bool) :
    (headIsText segs = false → charMinSize segs concealed measure = none ∧
      minSize segs rowBounds wrap measure padding inset = none) ∧
    (headIsText segs = true → (charMinSize segs concealed measure).isSome ∧
      (minSize segs rowBounds wrap measure padding inset).isSome) := by
  constructor
  · intro hf
    cases segs with
    | nil => exact ⟨rfl, rfl⟩
    | cons s rest =>
      cases s with
      | text t => simp [headIsText] at hf
      | nontext => exact ⟨rfl, rfl⟩
  · intro ht
    cases segs with
    | nil => simp [headIsText] at ht
    | cons s rest =>
      cases s with
      | text t => exact ⟨rfl, rfl⟩
      | nontext => simp [headIsText] at ht

theorem c10_witness :
    (charMinSize [Segment.nontext] false (fun _ _ => (1, 1)) = none ∧
      minSize [Segment.nontext] [] TextWrap.off (fun _ _ => (1, 1)) 0 (0, 0) = none) ∧
    ((charMinSize [Segment.text ⟨⟨true⟩, ['a'], false⟩] false
        (fun _ _ => (1, 1))).isSome ∧
      (minSize [Segment.text ⟨⟨true⟩, ['a'], false⟩] [] TextWrap.off
        (fun _ _ => (1, 1)) 0 (0, 0)).isSome) :=
  ⟨(c10_minSize_requires_text_head [Segment.nontext] [] TextWrap.off
      (fun _ _ => (1, 1)) 0 (0, 0) false).1 (by decide),
   (c10_minSize_requires_text_head [Segment.text ⟨⟨true⟩, ['a'], false⟩] []
      TextWrap.off (fun _ _ => (1, 1)) 0 (0, 0) false).2 (by decide)⟩

/-- C1 (counterexample): the text `"abcd"` is a single unbreakable
(whitespace-free) token whose measured width 40 exceeds `maxWidth = 25`
under the monotone measurer `10 * length`, yet word-wrap does NOT emit it as
a single full row: the no-whitespace fallback splits it at the
break-anywhere offset into the two fitting rows `[0,2)` and `[2,4)`, and no
produced boundary covers the token in full. -/
theorem c1_counterexample :
    lineBounds ⟨⟨true⟩, ['a','b','c','d'], false⟩ TextWrap.word 25
        (fun s => 10 * (s.length : Int)) =
      [⟨⟨⟨true⟩, ['a','b','c','d'], false⟩, 0, 2, false⟩,
       ⟨⟨⟨true⟩, ['a','b','c','d'], false⟩, 2, 4, false⟩] ∧
    (fun s => 10 * (s.length : Int) : List Char → Int) ['a','b','c','d'] > 25 ∧
    (['a','b','c','d'].all fun c => ! isSpaceGo c) = true ∧
    ((lineBounds ⟨⟨true⟩, ['a','b','c','d'], false⟩ TextWrap.word 25
        (fun s => 10 * (s.length : Int))).all
      fun b => ! (b.begin == 0 && b.end' == 4)) = true := by
  decide

/-- C1 (amended): for every text, every measurement function and every
positive `maxWidth`, word-wrap never produces a row boundary with
`begin < end` whose measured width exceeds `maxWidth` — rows are only ever
emitted from the fitting branch of the loop; an unbreakable token longer
than `maxWidth` is split at break-anywhere offsets into fitting rows (or
contributes no row at all when not even one rune fits) rather than
occupying a single over-wide row of its own. -/
theorem c1_word_rows_fit (seg : TextSegment) (measurer : List Char → Int)
    (maxWidth : Int) (b : rowBoundary) (hpos : 0 < maxWidth)
    (hb : b ∈ lineBounds seg TextWrap.word maxWidth measurer)
    (hlt : b.begin < b.end') :
    measurer (goSlice seg.Text b.begin b.end') ≤ maxWidth := by
  unfold lineBounds at hb
  rw [if_neg (by push_neg; exact ⟨by omega, by decide⟩)] at hb
  simp only [List.mem_flatten, List.mem_map] at hb
  rcases hb with ⟨rows, ⟨l, hl, hrows⟩, hbin⟩
  subst hrows
  split at hbin
  · rename_i hdeg
    simp only [List.mem_singleton] at hbin
    subst hbin
    omega
  · rcases ho : wordLoopF seg seg.Text measurer maxWidth l.end'
        (loopFuel l.end') l.begin l.end' with _ | rows2
    · rw [ho] at hbin
      simp at hbin
    · rw [ho] at hbin
      simp only [Option.getD_some] at hbin
      exact (wordLoopF_mem seg seg.Text measurer maxWidth l.end' _ _ _ _
        (le_refl _) ho b hbin).2.2.2

theorem c1_witness :
    (fun s => 10 * (s.length : Int)) (goSlice ['a','b','c','d'] 0 2) ≤ 25 :=
  c1_word_rows_fit ⟨⟨true⟩, ['a','b','c','d'], false⟩
    (fun s => 10 * (s.length : Int)) 25
    ⟨⟨⟨true⟩, ['a','b','c','d'], false⟩, 0, 2, false⟩
    (by decide) (by decide) (by decide)

/-- C7: the break-anywhere wrapping loop terminates: the fuel `lineBounds`
passes is never exhausted (the loop completes), because on each iteration
either the prefix fits and `low` strictly increases to `high` — decreasing
the measure `(lineEnd + 1 - low) * (lineEnd + 2) + high` — or it does not
fit and `high` strictly decreases through the binary search. -/
theorem c7_break_terminates (seg : TextSegment) (text : List Char)
    (measurer : List Char → Int) (maxWidth : Int) (lineEnd low high fuel : Nat)
    (hmu : (lineEnd + 1 - low) * (lineEnd + 2) + high < fuel) (hlt : low < high) :
    (breakLoopF seg text measurer maxWidth lineEnd fuel low high).isSome ∧
    (measurer (goSlice text low high) ≤ maxWidth →
      (lineEnd + 1 - high) * (lineEnd + 2) + lineEnd <
        (lineEnd + 1 - low) * (lineEnd + 2) + high) ∧
    (¬ measurer (goSlice text low high) ≤ maxWidth →
      binarySearch (checker text measurer maxWidth) low high < high) :=
  ⟨breakLoopF_isSome seg text measurer maxWidth lineEnd fuel low high hmu,
   fun _ => muDecFit low high high lineEnd hlt hlt,
   fun hnf => breakStep_lt text measurer maxWidth low high hlt hnf⟩

theorem c7_witness :
    (breakLoopF ⟨⟨true⟩, ['a','b'], false⟩ ['a','b']
      (fun s => 10 * (s.length : Int)) 5 2 15 0 2).isSome ∧
    binarySearch (checker ['a','b'] (fun s => 10 * (s.length : Int)) 5) 0 2 < 2 := by
  have h := c7_break_terminates ⟨⟨true⟩, ['a','b'], false⟩ ['a','b']
    (fun s => 10 * (s.length : Int)) 5 2 0 2 15 (by decide) (by decide)
  exact ⟨h.1, h.2.2 (by decide)⟩

/-- C8: every row boundary produced by `lineBounds` — for any segment, wrap
mode, width and measurement function — satisfies
`begin ≤ end ≤ len(runes(segment.Text))` (offsets are `Nat`, hence
`0 ≤ begin` holds by construction); zero-width degenerate boundaries coming
from empty physical lines are kept in the output, not dropped; and the
boundaries stored by `updateRowBounds` satisfy the same offset invariant. -/
theorem c8_row_bounds_invariant (seg : TextSegment) (wrap : TextWrap)
    (maxWidth : Int) (measurer : List Char → Int) (b l : rowBoundary)
    (segs : List Segment) (measureText : TextSegment → List Char → Int)
    (b2 : rowBoundary)
    (hb : b ∈ lineBounds seg wrap maxWidth measurer)
    (hl : l ∈ splitLines seg) (hdeg : l.begin = l.end')
    (hb2 : b2 ∈ updateRowBounds segs wrap maxWidth measureText) :
    (b.seg = seg ∧ b.begin ≤ b.end' ∧ b.end' ≤ seg.Text.length) ∧
    l ∈ lineBounds seg wrap maxWidth measurer ∧
    (b2.begin ≤ b2.end' ∧ b2.end' ≤ b2.seg.Text.length) :=
  ⟨lineBounds_mem seg wrap maxWidth measurer b hb,
   lineBounds_keeps_degenerate seg wrap maxWidth measurer l hl hdeg,
   updateRowBoundsLoop_mem wrap maxWidth measureText segs [] (by simp) b2 hb2⟩

theorem c8_witness :
    ((⟨⟨⟨true⟩, ['x','\n'], false⟩, 0, 1, false⟩ : rowBoundary).seg =
        ⟨⟨true⟩, ['x','\n'], false⟩ ∧
      (⟨⟨⟨true⟩, ['x','\n'], false⟩, 0, 1, false⟩ : rowBoundary).begin ≤
        (⟨⟨⟨true⟩, ['x','\n'], false⟩, 0, 1, false⟩ : rowBoundary).end' ∧
      (⟨⟨⟨true⟩, ['x','\n'], false⟩, 0, 1, false⟩ : rowBoundary).end' ≤
        (⟨⟨true⟩, ['x','\n'], false⟩ : TextSegment).Text.length) ∧
    (⟨⟨⟨true⟩, ['x','\n'], false⟩, 2, 2, true⟩ : rowBoundary) ∈
      lineBounds ⟨⟨true⟩, ['x','\n'], false⟩ TextWrap.word 10
        (fun s => (s.length : Int)) ∧
    ((⟨⟨⟨true⟩, ['x','\n'], false⟩, 0, 1, false⟩ : rowBoundary).begin ≤
        (⟨⟨⟨true⟩, ['x','\n'], false⟩, 0, 1, false⟩ : rowBoundary).end' ∧
      (⟨⟨⟨true⟩, ['x','\n'], false⟩, 0, 1, false⟩ : rowBoundary).end' ≤
        (⟨⟨⟨true⟩, ['x','\n'], false⟩, 0, 1, false⟩ : rowBoundary).seg.Text.length) :=
  c8_row_bounds_invariant ⟨⟨true⟩, ['x','\n'], false⟩ TextWrap.word 10
    (fun s => (s.length : Int))
    ⟨⟨⟨true⟩, ['x','\n'], false⟩, 0, 1, false⟩
    ⟨⟨⟨true⟩, ['x','\n'], false⟩, 2, 2, true⟩
    [Segment.text ⟨⟨true⟩, ['x','\n'], false⟩]
    (fun _ s => (s.length : Int))
    ⟨⟨⟨true⟩, ['x','\n'], false⟩, 0, 1, false⟩
    (by decide) (by decide) (by decide) (by decide)
